import Mathlib

/-!
Verification of the thread-pool module `src/project/ThreadPool/thread_pool.py`
of the repository, against its specification.

The pool is embedded as an interleaving transition system.  All shared state
of the Python class (`tasks_queue`, `stop_flag`, plus the control position of
every worker thread) is accessed only while holding the single lock
`self.lock` (which also underlies `self.condition`), so every maximal
lock-holding region of the source is one atomic transition of the model:

* worker, first `with self.condition` block (lines 65-70): from the loop top,
  while holding the lock the worker either goes to sleep on the condition
  (queue empty, stop flag unset), exits the loop (stop flag set, queue empty),
  or proceeds towards the second lock region (queue non-empty);
* worker, second `with self.lock` block (lines 72-76): pop the head of the
  queue if non-empty, otherwise `continue` back to the loop top.  The lock is
  released between the two regions, so other threads may run in between;
* worker, task call `task(*args, **kwargs)` (line 78): runs outside the lock;
* `enqueue` (lines 95-97): append the task triple to the tail and notify one
  waiting worker (CPython wakes waiters in FIFO order of their waits);
* `dispose`, first part (lines 113-115): set the stop flag and notify all
  waiting workers.  The joins (lines 117-118) mean that `dispose` has
  returned exactly in the states where every worker has terminated.

A `condition.wait` releases the lock and, once notified, re-acquires it and
re-executes the `while not self.tasks_queue and not self.stop_flag` check;
re-running that check from the loop top is the same atomic region, so a
notified worker simply returns to the loop-top control point.

Ghost fields (`dequeued_log`, `executed_log`, `empty_pop_count`) record the
observable events (a pop from the queue, a completed task call, a worker
finding the queue empty at the pop point) and are touched only where the
corresponding source line runs; they do not influence control flow.
-/

namespace ThreadPool

/-- A queue element of `tasks_queue`: the tuple `(task, args, kwargs)` built
by `enqueue` (line 96).  The callable is abstracted by an identifier; the
positional and keyword arguments are bound immutably at enqueue time. -/
structure Task where
  fn : Nat
  args : List Int
  kwargs : List (String × Int)
deriving DecidableEq, Repr

/-- Control position of one worker thread inside `ThreadPool.worker`
(lines 64-78). -/
inductive WorkerPc where
  /-- At the top of the `while True` loop (line 64), not holding the lock. -/
  | loopTop : WorkerPc
  /-- Blocked inside `self.condition.wait()` (line 67). -/
  | waiting : WorkerPc
  /-- Between the two lock regions: observed a non-empty queue and left the
  first `with` block, about to enter `with self.lock` (line 72). -/
  | beforePop : WorkerPc
  /-- Popped `(task, args, kwargs)` (line 74) and left the second lock
  region, about to call `task(*args, **kwargs)` (line 78). -/
  | running (t : Task) : WorkerPc
  /-- Left the loop via `break` (line 70): the thread has terminated. -/
  | finished : WorkerPc
deriving DecidableEq, Repr

/-- The shared state of a `ThreadPool` object together with the control
position of each worker thread and the ghost event logs. -/
structure PoolState where
  /-- `self.tasks_queue` (line 36): the FIFO list of pending task tuples. -/
  tasks_queue : List Task
  /-- `self.stop_flag` (line 40). -/
  stop_flag : Bool
  /-- Control position of each worker thread of `self.threads` (line 38),
  indexed by position in that list. -/
  threads : List WorkerPc
  /-- The internal FIFO waiter queue of `self.condition` (line 42): indices
  of the workers currently blocked in `condition.wait()`, oldest first. -/
  cond_waiters : List Nat
  /-- Ghost: tasks removed from the queue by `pop(0)` (line 74), in order. -/
  dequeued_log : List Task
  /-- Ghost: tasks whose call `task(*args, **kwargs)` (line 78) completed,
  in completion order. -/
  executed_log : List Task
  /-- Ghost: number of times a worker reached the `else: continue` branch
  (line 76), i.e. found the queue empty at the pop point. -/
  empty_pop_count : Nat
deriving DecidableEq, Repr

/-- `ThreadPool.__init__(thread_num)` (lines 21-47) for a non-negative
thread count: empty queue, stop flag `False`, `thread_num` workers started
at the top of their loop.  -/
def initState (thread_num : Nat) : PoolState where
  tasks_queue := []
  stop_flag := false
  threads := List.replicate thread_num .loopTop
  cond_waiters := []
  dequeued_log := []
  executed_log := []
  empty_pop_count := 0

/-- `ThreadPool.__init__` as called from Python, where `thread_num` may be
any integer.  The constructor performs no validation and raises nothing
(its docstring says `Raises: None`); `for _ in range(thread_num)` runs
`max thread_num 0` times, so a negative count silently yields a pool with
zero worker threads. -/
def mkThreadPool (thread_num : Int) : Except String PoolState :=
  .ok (initState thread_num.toNat)

/-- A scheduling event: one atomic lock region (or the unlocked task call)
executed by one thread. -/
inductive Act where
  /-- Worker number `w` executes its next atomic region of
  `ThreadPool.worker`. -/
  | wstep (w : Nat) : Act
  /-- The producer thread runs `enqueue(task, *args, **kwargs)`
  (lines 95-97). -/
  | enq (t : Task) : Act
  /-- The producer thread runs the locked part of `dispose` (lines 113-115):
  set the stop flag and `notify_all`. -/
  | disp : Act
deriving DecidableEq, Repr

@[simp]
theorem wstep_beq_disp (w : Nat) : (Act.wstep w == Act.disp) = false := rfl

@[simp]
theorem enq_beq_disp (t : Task) : (Act.enq t == Act.disp) = false := rfl

@[simp]
theorem disp_beq_disp : (Act.disp == Act.disp) = true := rfl

/-- `self.condition.notify()` at line 97: wake the longest-waiting worker,
if any (CPython wakes waiters in FIFO order). -/
def notifyOne (s : PoolState) : PoolState :=
  match s.cond_waiters with
  | [] => s
  | w :: ws => { s with threads := s.threads.set w .loopTop, cond_waiters := ws }

/-- `self.condition.notify_all()` at line 115: wake every waiting worker. -/
def wakeAll (pc : WorkerPc) : WorkerPc :=
  match pc with
  | .waiting => .loopTop
  | pc => pc

/-- One atomic region of worker `w` (see the header comment): dispatch on
its current control position. -/
def workerStep (s : PoolState) (w : Nat) (pc : WorkerPc) : PoolState :=
  match pc with
  | .loopTop =>
      -- `with self.condition:` (lines 65-70), run until the lock is released.
      if s.tasks_queue.isEmpty then
        if s.stop_flag then
          -- line 69-70: `if self.stop_flag and not self.tasks_queue: break`
          { s with threads := s.threads.set w .finished }
        else
          -- line 66-67: queue empty, stop unset: `self.condition.wait()`
          { s with threads := s.threads.set w .waiting,
                   cond_waiters := s.cond_waiters ++ [w] }
      else
        -- queue non-empty: leave the first block towards `with self.lock`
        { s with threads := s.threads.set w .beforePop }
  | .waiting => s  -- blocked in `wait()`; only notify / notify_all wakes it
  | .beforePop =>
      -- `with self.lock:` (lines 72-76)
      match s.tasks_queue with
      | [] =>
          -- line 75-76: `else: continue`
          { s with threads := s.threads.set w .loopTop,
                   empty_pop_count := s.empty_pop_count + 1 }
      | t :: rest =>
          -- line 73-74: `task, args, kwargs = self.tasks_queue.pop(0)`
          { s with tasks_queue := rest,
                   dequeued_log := s.dequeued_log ++ [t],
                   threads := s.threads.set w (.running t) }
  | .running t =>
      -- line 78: `task(*args, **kwargs)` runs to completion, then loop back
      { s with executed_log := s.executed_log ++ [t],
               threads := s.threads.set w .loopTop }
  | .finished => s

/-- One atomic transition of the whole system. -/
def step (s : PoolState) (a : Act) : PoolState :=
  match a with
  | .enq t =>
      -- lines 95-97: append `(task, args, kwargs)` to the tail, notify one
      notifyOne { s with tasks_queue := s.tasks_queue ++ [t] }
  | .disp =>
      -- lines 113-115: set the stop flag, wake all waiters
      { s with stop_flag := true,
               threads := s.threads.map wakeAll,
               cond_waiters := [] }
  | .wstep w =>
      match s.threads[w]? with
      | none => s
      | some pc => workerStep s w pc

/-- Run a schedule: fold `step` over a list of events. -/
def run (s : PoolState) (acts : List Act) : PoolState :=
  acts.foldl step s

/-- Every worker thread has terminated: exactly the condition under which
the joins of `dispose` (lines 117-118) have all returned. -/
def allFinished (s : PoolState) : Prop :=
  ∀ pc ∈ s.threads, pc = WorkerPc.finished

instance (s : PoolState) : Decidable (allFinished s) := by
  unfold allFinished; infer_instance

/-- `dispose()` has been called and has returned: its locked part ran
(stop flag set) and every join completed (every worker terminated). -/
def disposeReturned (s : PoolState) : Prop :=
  s.stop_flag = true ∧ allFinished s

instance (s : PoolState) : Decidable (disposeReturned s) := by
  unfold disposeReturned; infer_instance

/-- The tasks enqueued by a schedule, in enqueue order. -/
def enqList (acts : List Act) : List Task :=
  acts.filterMap fun a =>
    match a with
    | .enq t => some t
    | _ => none

/-- The task a worker is currently calling, if any. -/
def runningTask : WorkerPc → Option Task
  | .running t => some t
  | _ => none

/-- The tasks currently popped but not yet finished executing: one for each
worker at the `task(*args, **kwargs)` call. -/
def inFlight (threads : List WorkerPc) : List Task :=
  threads.filterMap runningTask

/-- A schedule in which no task is enqueued after `dispose` has been called:
the setting of claims C1 and C2 (all enqueues happen before `dispose`).
`stopped` is the stop-flag value at the start of the schedule. -/
def noEnqAfterDisp (stopped : Bool) : List Act → Bool
  | [] => true
  | a :: rest =>
      match a with
      | .enq _ => !stopped && noEnqAfterDisp stopped rest
      | .disp => noEnqAfterDisp true rest
      | .wstep _ => noEnqAfterDisp stopped rest

/-! ## Basic equations for `run` -/

@[simp]
theorem run_nil (s : PoolState) : run s [] = s := rfl

@[simp]
theorem run_cons (s : PoolState) (a : Act) (acts : List Act) :
    run s (a :: acts) = run (step s a) acts := rfl

/-! ## Generic list helpers -/

theorem filterMap_cons_toList {α β : Type} (f : α → Option β) (x : α)
    (xs : List α) :
    (x :: xs).filterMap f = (f x).toList ++ xs.filterMap f := by
  cases h : f x <;> simp [List.filterMap_cons, h]

/-- Replacing one known element of a list changes its `filterMap` image, seen
as a multiset, by swapping the images of the old and the new element. -/
theorem filterMap_set_multiset {α β : Type} (f : α → Option β) :
    ∀ (l : List α) (i : Nat) (a b : α), l[i]? = some a →
      ((l.set i b).filterMap f : Multiset β) + ((f a).toList : Multiset β)
        = (l.filterMap f : Multiset β) + ((f b).toList : Multiset β) := by
  intro l
  induction l with
  | nil => intro i a b h; simp at h
  | cons x xs ih =>
      intro i a b h
      cases i with
      | zero =>
          simp only [List.getElem?_cons_zero, Option.some.injEq] at h
          subst h
          rw [List.set_cons_zero, filterMap_cons_toList, filterMap_cons_toList,
            ← Multiset.coe_add, ← Multiset.coe_add]
          abel
      | succ i =>
          simp only [List.getElem?_cons_succ] at h
          have hx := ih i a b h
          rw [List.set_cons_succ, filterMap_cons_toList, filterMap_cons_toList,
            ← Multiset.coe_add, ← Multiset.coe_add, add_assoc, hx, add_assoc]

/-! ## The number of worker threads never changes -/

theorem step_threads_length (s : PoolState) (a : Act) :
    (step s a).threads.length = s.threads.length := by
  cases a with
  | enq t =>
      simp only [step, notifyOne]
      cases s.cond_waiters <;> simp
  | disp => simp [step]
  | wstep w =>
      cases hw : s.threads[w]? with
      | none => simp [step, hw]
      | some pc =>
          cases pc with
          | loopTop =>
              simp only [step, hw, workerStep]
              split
              · split <;> simp
              · simp
          | waiting => simp [step, hw, workerStep]
          | beforePop =>
              simp only [step, hw, workerStep]
              cases s.tasks_queue <;> simp
          | running t => simp [step, hw, workerStep]
          | finished => simp [step, hw, workerStep]

theorem run_threads_length (acts : List Act) (s : PoolState) :
    (run s acts).threads.length = s.threads.length := by
  induction acts generalizing s with
  | nil => rfl
  | cons a acts ih => rw [run_cons, ih, step_threads_length]

/-! ## Evolution of the stop flag -/

theorem step_stop_flag (s : PoolState) (a : Act) :
    (step s a).stop_flag = (s.stop_flag || a == Act.disp) := by
  cases a with
  | enq t =>
      simp only [step, notifyOne]
      cases s.cond_waiters <;> simp
  | disp => simp [step]
  | wstep w =>
      cases hw : s.threads[w]? with
      | none => simp [step, hw]
      | some pc =>
          cases pc with
          | loopTop =>
              simp only [step, hw, workerStep]
              split
              · split <;> simp
              · simp
          | waiting => simp [step, hw, workerStep]
          | beforePop =>
              simp only [step, hw, workerStep]
              cases s.tasks_queue <;> simp
          | running t => simp [step, hw, workerStep]
          | finished => simp [step, hw, workerStep]

theorem run_stop_iff (acts : List Act) (s : PoolState) :
    (run s acts).stop_flag = true ↔ (s.stop_flag = true ∨ Act.disp ∈ acts) := by
  induction acts generalizing s with
  | nil => simp
  | cons a acts ih =>
      rw [run_cons, ih, step_stop_flag]
      cases a <;> simp [List.mem_cons]

/-! ## FIFO conservation: dequeue log plus pending queue = enqueue log -/

theorem step_fifo (s : PoolState) (a : Act) :
    (step s a).dequeued_log ++ (step s a).tasks_queue
      = s.dequeued_log ++ s.tasks_queue ++ enqList [a] := by
  cases a with
  | enq t =>
      simp only [step, notifyOne]
      cases s.cond_waiters <;> simp [enqList]
  | disp => simp [step, enqList]
  | wstep w =>
      cases hw : s.threads[w]? with
      | none => simp [step, hw, enqList]
      | some pc =>
          cases pc with
          | loopTop =>
              simp only [step, hw, workerStep]
              split
              · split <;> simp [enqList]
              · simp [enqList]
          | waiting => simp [step, hw, workerStep, enqList]
          | beforePop =>
              simp only [step, hw, workerStep]
              cases s.tasks_queue <;> simp [enqList]
          | running t => simp [step, hw, workerStep, enqList]
          | finished => simp [step, hw, workerStep, enqList]

theorem run_fifo (acts : List Act) (s : PoolState) :
    (run s acts).dequeued_log ++ (run s acts).tasks_queue
      = s.dequeued_log ++ s.tasks_queue ++ enqList acts := by
  induction acts generalizing s with
  | nil => simp [enqList]
  | cons a acts ih =>
      rw [run_cons, ih, step_fifo]
      cases a <;> simp [enqList, List.filterMap_cons]

/-! ## The condition-variable waiter queue lists exactly sleeping workers -/

/-- Invariant: every index in the waiter queue of the condition points at a
worker blocked in `wait()`, and no worker appears in it twice. -/
def WaitersInv (s : PoolState) : Prop :=
  (∀ w ∈ s.cond_waiters, s.threads[w]? = some WorkerPc.waiting)
    ∧ s.cond_waiters.Nodup

theorem getElem?_set_of_mem_waiters {s : PoolState} {w w' : Nat}
    {pc b : WorkerPc} (hw : s.threads[w]? = some pc)
    (hpc : pc ≠ WorkerPc.waiting) (hInv : WaitersInv s)
    (hmem : w' ∈ s.cond_waiters) :
    (s.threads.set w b)[w']? = some WorkerPc.waiting := by
  have hwait := hInv.1 w' hmem
  have hne : w ≠ w' := by
    intro h
    subst h
    rw [hw] at hwait
    exact hpc (Option.some.injEq .. ▸ hwait)
  rw [List.getElem?_set_ne hne]
  exact hwait

theorem waitersInv_step (s : PoolState) (a : Act) (h : WaitersInv s) :
    WaitersInv (step s a) := by
  obtain ⟨h1, h2⟩ := h
  cases a with
  | enq t =>
      cases hcw : s.cond_waiters with
      | nil =>
          constructor
          · intro w' hm
            simp [step, notifyOne, hcw] at hm
          · simp [step, notifyOne, hcw]
      | cons w ws =>
          rw [hcw] at h1 h2
          constructor
          · intro w' hmem
            simp only [step, notifyOne, hcw] at hmem ⊢
            have hne : w ≠ w' := by
              intro hcontra
              subst hcontra
              exact (List.nodup_cons.mp h2).1 hmem
            rw [List.getElem?_set_ne hne]
            exact h1 w' (List.mem_cons_of_mem w hmem)
          · simp only [step, notifyOne, hcw]
            exact h2.of_cons
  | disp => exact ⟨by simp [step], by simp [step]⟩
  | wstep w =>
      cases hw : s.threads[w]? with
      | none => simpa [step, hw] using ⟨h1, h2⟩
      | some pc =>
          have hInv : WaitersInv s := ⟨h1, h2⟩
          cases pc with
          | loopTop =>
              simp only [step, hw, workerStep]
              split
              · split
                · exact ⟨fun w' hm =>
                    getElem?_set_of_mem_waiters hw (by simp) hInv hm, h2⟩
                · constructor
                  · intro w' hm
                    simp at hm
                    rcases hm with hm | hm
                    · exact getElem?_set_of_mem_waiters hw (by simp) hInv hm
                    · subst hm
                      have hlt : w' < s.threads.length := by
                        rcases List.getElem?_eq_some.mp hw with ⟨hlt, _⟩
                        exact hlt
                      simp [List.getElem?_set_self, hlt]
                  · have hnotmem : w ∉ s.cond_waiters := by
                      intro hm
                      have := h1 w hm
                      rw [hw] at this
                      simp at this
                    simp [List.nodup_append, h2, hnotmem]
              · exact ⟨fun w' hm =>
                  getElem?_set_of_mem_waiters hw (by simp) hInv hm, h2⟩
          | waiting => simpa [step, hw, workerStep] using hInv
          | beforePop =>
              simp only [step, hw, workerStep]
              cases s.tasks_queue with
              | nil => exact ⟨fun w' hm =>
                  getElem?_set_of_mem_waiters hw (by simp) hInv hm, h2⟩
              | cons t rest => exact ⟨fun w' hm =>
                  getElem?_set_of_mem_waiters hw (by simp) hInv hm, h2⟩
          | running t =>
              simp only [step, hw, workerStep]
              exact ⟨fun w' hm =>
                getElem?_set_of_mem_waiters hw (by simp) hInv hm, h2⟩
          | finished => simpa [step, hw, workerStep] using hInv

theorem waitersInv_run (acts : List Act) (s : PoolState) (h : WaitersInv s) :
    WaitersInv (run s acts) := by
  induction acts generalizing s with
  | nil => exact h
  | cons a acts ih => exact ih _ (waitersInv_step s a h)

theorem waitersInv_init (n : Nat) : WaitersInv (initState n) :=
  ⟨by simp [initState], by simp [initState]⟩

/-! ## A terminated worker is only ever seen with the stop flag set -/

/-- Invariant: if some worker has left its loop (`break` at line 70), the
stop flag is set.  The `break` is guarded by `if self.stop_flag`, and the
stop flag never goes back to `False`. -/
def DoneStop (s : PoolState) : Prop :=
  WorkerPc.finished ∈ s.threads → s.stop_flag = true

theorem doneStop_step (s : PoolState) (a : Act) (h : DoneStop s) :
    DoneStop (step s a) := by
  cases a with
  | enq t =>
      cases hcw : s.cond_waiters with
      | nil =>
          intro hmem
          simp only [step, notifyOne, hcw] at hmem ⊢
          exact h hmem
      | cons w ws =>
          intro hmem
          simp only [step, notifyOne, hcw] at hmem ⊢
          rcases List.mem_or_eq_of_mem_set hmem with hm | hm
          · exact h hm
          · exact absurd hm (by simp)
  | disp => intro _; simp [step]
  | wstep w =>
      cases hw : s.threads[w]? with
      | none => intro hmem; simp only [step, hw] at hmem ⊢; exact h hmem
      | some pc =>
          cases pc with
          | loopTop =>
              simp only [step, hw, workerStep]
              split
              · split
                · rename_i hstop
                  intro _
                  exact hstop
                · intro hmem
                  rcases List.mem_or_eq_of_mem_set hmem with hm | hm
                  · exact h hm
                  · exact absurd hm (by simp)
              · intro hmem
                rcases List.mem_or_eq_of_mem_set hmem with hm | hm
                · exact h hm
                · exact absurd hm (by simp)
          | waiting => simpa [step, hw, workerStep] using h
          | beforePop =>
              simp only [step, hw, workerStep]
              cases s.tasks_queue with
              | nil =>
                  intro hmem
                  rcases List.mem_or_eq_of_mem_set hmem with hm | hm
                  · exact h hm
                  · exact absurd hm (by simp)
              | cons t rest =>
                  intro hmem
                  rcases List.mem_or_eq_of_mem_set hmem with hm | hm
                  · exact h hm
                  · exact absurd hm (by simp)
          | running t =>
              simp only [step, hw, workerStep]
              intro hmem
              rcases List.mem_or_eq_of_mem_set hmem with hm | hm
              · exact h hm
              · exact absurd hm (by simp)
          | finished => simpa [step, hw, workerStep] using h

theorem doneStop_run (acts : List Act) (s : PoolState) (h : DoneStop s) :
    DoneStop (run s acts) := by
  induction acts generalizing s with
  | nil => exact h
  | cons a acts ih => exact ih _ (doneStop_step s a h)

theorem doneStop_init (n : Nat) : DoneStop (initState n) := by
  intro hmem
  simp [initState, List.mem_replicate] at hmem

/-! ## Conservation: executed tasks plus in-flight tasks = dequeued tasks -/

/-- Invariant: as multisets, the completed task calls together with the
currently in-flight calls are exactly the tasks popped from the queue. -/
def ExecInv (s : PoolState) : Prop :=
  (s.executed_log : Multiset Task) + (inFlight s.threads : Multiset Task)
    = (s.dequeued_log : Multiset Task)

theorem execInv_step (s : PoolState) (a : Act) (hW : WaitersInv s)
    (h : ExecInv s) : ExecInv (step s a) := by
  unfold ExecInv at h ⊢
  simp only [inFlight] at h ⊢
  cases a with
  | enq t =>
      cases hcw : s.cond_waiters with
      | nil => simpa only [step, notifyOne, hcw] using h
      | cons w ws =>
          simp only [step, notifyOne, hcw]
          have hww : s.threads[w]? = some WorkerPc.waiting :=
            hW.1 w (by rw [hcw]; exact List.mem_cons_self w ws)
          have hswap := filterMap_set_multiset runningTask s.threads w
            WorkerPc.waiting WorkerPc.loopTop hww
          simp only [runningTask, Option.toList_none, Multiset.coe_nil,
            add_zero] at hswap
          rw [hswap]
          exact h
  | disp =>
      simp only [step, List.filterMap_map]
      have hcomp : runningTask ∘ wakeAll = runningTask := by
        funext pc
        cases pc <;> rfl
      rw [hcomp]
      exact h
  | wstep w =>
      cases hw : s.threads[w]? with
      | none => simpa only [step, hw] using h
      | some pc =>
          cases pc with
          | loopTop =>
              simp only [step, hw, workerStep]
              split
              · split
                · have hswap := filterMap_set_multiset runningTask s.threads w
                    WorkerPc.loopTop WorkerPc.finished hw
                  simp only [runningTask, Option.toList_none, Multiset.coe_nil,
                    add_zero] at hswap
                  rw [hswap]
                  exact h
                · have hswap := filterMap_set_multiset runningTask s.threads w
                    WorkerPc.loopTop WorkerPc.waiting hw
                  simp only [runningTask, Option.toList_none, Multiset.coe_nil,
                    add_zero] at hswap
                  rw [hswap]
                  exact h
              · have hswap := filterMap_set_multiset runningTask s.threads w
                  WorkerPc.loopTop WorkerPc.beforePop hw
                simp only [runningTask, Option.toList_none, Multiset.coe_nil,
                  add_zero] at hswap
                rw [hswap]
                exact h
          | waiting => simpa only [step, hw, workerStep] using h
          | beforePop =>
              cases hq : s.tasks_queue with
              | nil =>
                  simp only [step, hw, workerStep, hq]
                  have hswap := filterMap_set_multiset runningTask s.threads w
                    WorkerPc.beforePop WorkerPc.loopTop hw
                  simp only [runningTask, Option.toList_none, Multiset.coe_nil,
                    add_zero] at hswap
                  rw [hswap]
                  exact h
              | cons t rest =>
                  simp only [step, hw, workerStep, hq]
                  have hswap := filterMap_set_multiset runningTask s.threads w
                    WorkerPc.beforePop (WorkerPc.running t) hw
                  simp only [runningTask, Option.toList_none, Option.toList_some,
                    Multiset.coe_nil, add_zero, Multiset.coe_singleton] at hswap
                  simp only [← Multiset.coe_add, Multiset.coe_singleton] at h ⊢
                  rw [hswap, ← add_assoc, h]
          | running t =>
              simp only [step, hw, workerStep]
              have hswap := filterMap_set_multiset runningTask s.threads w
                (WorkerPc.running t) WorkerPc.loopTop hw
              simp only [runningTask, Option.toList_none, Option.toList_some,
                Multiset.coe_nil, add_zero, Multiset.coe_singleton] at hswap
              simp only [← Multiset.coe_add, Multiset.coe_singleton] at h ⊢
              rw [add_assoc, add_comm ({t} : Multiset Task), hswap, h]
          | finished => simpa only [step, hw, workerStep] using h

theorem execInv_run (acts : List Act) (s : PoolState) (hW : WaitersInv s)
    (h : ExecInv s) : ExecInv (run s acts) := by
  induction acts generalizing s with
  | nil => exact h
  | cons a acts ih =>
      exact ih _ (waitersInv_step s a hW) (execInv_step s a hW h)

theorem execInv_init (n : Nat) : ExecInv (initState n) := by
  unfold ExecInv inFlight
  simp [initState, runningTask]

/-! ## Generic consequences of an index lookup -/

theorem mem_of_getElem?_some {α : Type} {l : List α} {n : Nat} {a : α}
    (h : l[n]? = some a) : a ∈ l := by
  rcases List.getElem?_eq_some.mp h with ⟨hlt, hv⟩
  exact hv ▸ List.getElem_mem hlt

/-! ## Workers only terminate on an empty queue: the drain property -/

/-- If every worker has terminated (and there is at least one), the queue is
empty.  This is an invariant only of schedules with no enqueue after
`dispose`. -/
def DrainInv (s : PoolState) : Prop :=
  s.threads ≠ [] → allFinished s → s.tasks_queue = []

theorem drainInv_run (acts : List Act) (s : PoolState) (hD : DoneStop s)
    (hQ : DrainInv s) (hwf : noEnqAfterDisp s.stop_flag acts = true) :
    DrainInv (run s acts) := by
  induction acts generalizing s with
  | nil => exact hQ
  | cons a acts ih =>
      rw [run_cons]
      have hwf' : noEnqAfterDisp (step s a).stop_flag acts = true := by
        cases a with
        | enq t =>
            simp only [noEnqAfterDisp, Bool.and_eq_true, Bool.not_eq_eq_eq_not,
              Bool.not_true] at hwf
            rw [step_stop_flag]
            simpa [hwf.1] using hwf.2
        | disp =>
            simp only [noEnqAfterDisp] at hwf
            rw [step_stop_flag]
            simpa using hwf
        | wstep w =>
            simp only [noEnqAfterDisp] at hwf
            rw [step_stop_flag]
            simpa using hwf
      refine ih (step s a) (doneStop_step s a hD) ?_ hwf'
      intro hne hAll
      cases a with
      | enq t =>
          exfalso
          have hstop : s.stop_flag = false := by
            simp only [noEnqAfterDisp, Bool.and_eq_true, Bool.not_eq_eq_eq_not,
              Bool.not_true] at hwf
            exact hwf.1
          rcases List.exists_mem_of_ne_nil _ hne with ⟨pc, hpc⟩
          have hfin : WorkerPc.finished ∈ (step s (Act.enq t)).threads :=
            (hAll pc hpc) ▸ hpc
          have hfin' : WorkerPc.finished ∈ s.threads := by
            revert hfin
            simp only [step, notifyOne]
            cases hcw : s.cond_waiters with
            | nil => intro hfin; exact hfin
            | cons w ws =>
                intro hfin
                rcases List.mem_or_eq_of_mem_set hfin with hm | hm
                · exact hm
                · exact absurd hm (by simp)
          rw [hD hfin'] at hstop
          simp at hstop
      | disp =>
          have hAllPre : allFinished s := by
            intro pc hpc
            have hmem : wakeAll pc ∈ (step s Act.disp).threads := by
              simp only [step]
              exact List.mem_map_of_mem wakeAll hpc
            have := hAll _ hmem
            cases pc <;> simp [wakeAll] at this ⊢
          have hne' : s.threads ≠ [] := by
            intro hnil
            apply hne
            simp [step, hnil]
          simpa [step] using hQ hne' hAllPre
      | wstep w =>
          cases hw : s.threads[w]? with
          | none =>
              have hid : step s (Act.wstep w) = s := by simp [step, hw]
              rw [hid] at hAll hne ⊢
              exact hQ hne hAll
          | some pc =>
              cases pc with
              | loopTop =>
                  revert hAll hne
                  simp only [step, hw, workerStep]
                  split
                  · rename_i hq
                    split
                    · intro _ _
                      simpa using List.isEmpty_iff.mp hq
                    · intro _ _
                      simpa using List.isEmpty_iff.mp hq
                  · intro hne hAll
                    exfalso
                    have hlt : w < s.threads.length :=
                      (List.getElem?_eq_some.mp hw).1
                    have hget : (s.threads.set w WorkerPc.beforePop)[w]?
                        = some WorkerPc.beforePop := by
                      simp [List.getElem?_set_self, hlt]
                    have hmem : WorkerPc.beforePop ∈
                        s.threads.set w WorkerPc.beforePop :=
                      mem_of_getElem?_some hget
                    exact absurd (hAll _ hmem) (by simp)
              | waiting =>
                  have hid : step s (Act.wstep w) = s := by
                    simp [step, hw, workerStep]
                  rw [hid] at hAll hne ⊢
                  exact hQ hne hAll
              | beforePop =>
                  revert hAll hne
                  cases hq : s.tasks_queue with
                  | nil =>
                      intro _ _
                      simp only [step, hw, workerStep, hq]
                  | cons t rest =>
                      simp only [step, hw, workerStep, hq]
                      intro hne hAll
                      exfalso
                      have hlt : w < s.threads.length :=
                        (List.getElem?_eq_some.mp hw).1
                      have hget : (s.threads.set w (WorkerPc.running t))[w]?
                          = some (WorkerPc.running t) := by
                        simp [List.getElem?_set_self, hlt]
                      have hmem : WorkerPc.running t ∈
                          s.threads.set w (WorkerPc.running t) :=
                        mem_of_getElem?_some hget
                      exact absurd (hAll _ hmem) (by simp)
              | running t =>
                  revert hAll hne
                  simp only [step, hw, workerStep]
                  intro hne hAll
                  exfalso
                  have hlt : w < s.threads.length :=
                    (List.getElem?_eq_some.mp hw).1
                  have hget : (s.threads.set w WorkerPc.loopTop)[w]?
                      = some WorkerPc.loopTop := by
                    simp [List.getElem?_set_self, hlt]
                  have hmem : WorkerPc.loopTop ∈
                      s.threads.set w WorkerPc.loopTop :=
                    mem_of_getElem?_some hget
                  exact absurd (hAll _ hmem) (by simp)
              | finished =>
                  have hid : step s (Act.wstep w) = s := by
                    simp [step, hw, workerStep]
                  rw [hid] at hAll hne ⊢
                  exact hQ hne hAll

/-- From the initial state of a pool with at least one worker, any schedule
with no enqueue after `dispose` that ends with every worker terminated ends
with an empty queue. -/
theorem queue_empty_of_allFinished (n : Nat) (hn : 1 ≤ n) (acts : List Act)
    (hwf : noEnqAfterDisp false acts = true)
    (hAll : allFinished (run (initState n) acts)) :
    (run (initState n) acts).tasks_queue = [] := by
  have hD : DrainInv (run (initState n) acts) :=
    drainInv_run acts (initState n) (doneStop_init n)
      (fun _ _ => rfl) (by simpa [initState] using hwf)
  apply hD ?_ hAll
  intro hnil
  have := run_threads_length acts (initState n)
  rw [hnil] at this
  simp [initState] at this
  omega

/-! ## Once every worker has terminated, the pool is inert -/

theorem frozen_step (s : PoolState) (a : Act) (hAll : allFinished s)
    (hcw : s.cond_waiters = []) :
    (step s a).executed_log = s.executed_log
      ∧ (step s a).threads = s.threads
      ∧ (step s a).cond_waiters = []
      ∧ (step s a).dequeued_log = s.dequeued_log := by
  cases a with
  | enq t => simp [step, notifyOne, hcw]
  | disp =>
      have hmap : s.threads.map wakeAll = s.threads := by
        rw [List.map_congr_left (g := id) ?_, List.map_id]
        intro pc hpc
        rw [hAll pc hpc]
        rfl
      simp [step, hmap]
  | wstep w =>
      cases hw : s.threads[w]? with
      | none => simp [step, hw, hcw]
      | some pc =>
          have hfin : pc = WorkerPc.finished := hAll pc (mem_of_getElem?_some hw)
          subst hfin
          simp [step, hw, workerStep, hcw]

theorem frozen_run (acts : List Act) (s : PoolState) (hAll : allFinished s)
    (hcw : s.cond_waiters = []) :
    (run s acts).executed_log = s.executed_log
      ∧ (run s acts).threads = s.threads
      ∧ (run s acts).cond_waiters = []
      ∧ (run s acts).dequeued_log = s.dequeued_log := by
  induction acts generalizing s with
  | nil => exact ⟨rfl, rfl, hcw, rfl⟩
  | cons a acts ih =>
      obtain ⟨he, ht, hc, hd⟩ := frozen_step s a hAll hcw
      have hAll' : allFinished (step s a) := by
        intro pc hpc
        exact hAll pc (ht ▸ hpc)
      obtain ⟨he', ht', hc', hd'⟩ := ih (step s a) hAll' hc
      exact ⟨he' ▸ he, ht ▸ ht', hc', hd' ▸ hd⟩

/-- In a state where every worker has terminated, the condition has no
waiters. -/
theorem cond_waiters_nil_of_allFinished (s : PoolState) (hW : WaitersInv s)
    (hAll : allFinished s) : s.cond_waiters = [] := by
  cases hcw : s.cond_waiters with
  | nil => rfl
  | cons w ws =>
      exfalso
      have hww : s.threads[w]? = some WorkerPc.waiting :=
        hW.1 w (by rw [hcw]; exact List.mem_cons_self w ws)
      have hmem : WorkerPc.waiting ∈ s.threads := mem_of_getElem?_some hww
      exact absurd (hAll _ hmem) (by simp)

/-! ## Main helper: at full termination, executions match enqueues -/

/-- For a pool with at least one worker and a schedule with no enqueue after
`dispose`, if every worker has terminated then the multiset of completed
task calls equals the multiset of enqueued tasks. -/
theorem executed_matches_enqueued (n : Nat) (hn : 1 ≤ n) (acts : List Act)
    (hwf : noEnqAfterDisp false acts = true)
    (hAll : allFinished (run (initState n) acts)) :
    ((run (initState n) acts).executed_log : Multiset Task)
      = (enqList acts : Multiset Task) := by
  have hE := execInv_run acts (initState n) (waitersInv_init n) (execInv_init n)
  have hq := queue_empty_of_allFinished n hn acts hwf hAll
  have hfifo := run_fifo acts (initState n)
  rw [hq] at hfifo
  simp only [show (initState n).dequeued_log = [] from rfl,
    show (initState n).tasks_queue = [] from rfl,
    List.append_nil, List.nil_append] at hfifo
  have hinf : inFlight (run (initState n) acts).threads = [] := by
    unfold inFlight
    rw [List.filterMap_eq_nil_iff]
    intro pc hpc
    rw [hAll pc hpc]
    rfl
  unfold ExecInv at hE
  rw [hinf, Multiset.coe_nil, add_zero, hfifo] at hE
  exact hE

/-! ## Sample data for witnesses -/

/-- A concrete task: callable 0 with one positional argument. -/
def taskA : Task := ⟨0, [1], []⟩

/-- A concrete task: callable 1 with a positional and a keyword argument. -/
def taskB : Task := ⟨1, [2], [("k", 3)]⟩

/-! ## Claims -/

/-- Claim C1: for every run of the pool with worker count at least 1 in
which N tasks are enqueued (all before `dispose`) and `dispose` then
completes (every worker has terminated, which is when the joins return),
exactly N task executions occur, and each enqueued task is executed exactly
once: the multiset of executed tasks equals the multiset of enqueued
tasks, so none is executed twice by two workers and none is skipped. -/
theorem no_task_lost_or_duplicated (n : Nat) (acts : List Act) (hn : 1 ≤ n)
    (hwf : noEnqAfterDisp false acts = true)
    (hAll : allFinished (run (initState n) acts)) :
    ((run (initState n) acts).executed_log : Multiset Task)
        = (enqList acts : Multiset Task)
      ∧ (run (initState n) acts).executed_log.length = (enqList acts).length := by
  have hM := executed_matches_enqueued n hn acts hwf hAll
  refine ⟨hM, ?_⟩
  have := congrArg Multiset.card hM
  simpa [Multiset.coe_card] using this

/-- Witness for C1: a one-worker pool, one task enqueued then disposed,
with a schedule that terminates the worker; the execution log matches. -/
theorem no_task_lost_or_duplicated_witness :
    (1 ≤ 1
      ∧ noEnqAfterDisp false
          [Act.enq taskA, Act.disp, Act.wstep 0, Act.wstep 0, Act.wstep 0,
            Act.wstep 0] = true
      ∧ allFinished (run (initState 1)
          [Act.enq taskA, Act.disp, Act.wstep 0, Act.wstep 0, Act.wstep 0,
            Act.wstep 0]))
    ∧ ((run (initState 1)
          [Act.enq taskA, Act.disp, Act.wstep 0, Act.wstep 0, Act.wstep 0,
            Act.wstep 0]).executed_log : Multiset Task)
        = (enqList [Act.enq taskA, Act.disp, Act.wstep 0, Act.wstep 0,
            Act.wstep 0, Act.wstep 0] : Multiset Task) :=
  ⟨⟨by decide, by decide, by decide⟩,
    (no_task_lost_or_duplicated 1
      [Act.enq taskA, Act.disp, Act.wstep 0, Act.wstep 0, Act.wstep 0,
        Act.wstep 0] (by decide) (by decide) (by decide)).1⟩

/-- Claim C2: for every pool (constructed per the interface with a positive
worker count) and every schedule with no enqueue after `dispose`, when
`dispose()` has returned (its locked part ran and all joins completed):
(a) the stop flag is set, (b) the task queue is empty, (c) every worker has
terminated, and every task enqueued before `dispose` has completed
execution. -/
theorem dispose_return_guarantees (n : Nat) (acts : List Act) (hn : 1 ≤ n)
    (hwf : noEnqAfterDisp false acts = true)
    (hret : disposeReturned (run (initState n) acts)) :
    (run (initState n) acts).stop_flag = true
      ∧ allFinished (run (initState n) acts)
      ∧ (run (initState n) acts).tasks_queue = []
      ∧ ((run (initState n) acts).executed_log : Multiset Task)
          = (enqList acts : Multiset Task) := by
  obtain ⟨hstop, hAll⟩ := hret
  exact ⟨hstop, hAll, queue_empty_of_allFinished n hn acts hwf hAll,
    executed_matches_enqueued n hn acts hwf hAll⟩

/-- Witness for C2: two tasks drained by one worker after `dispose`. -/
theorem dispose_return_guarantees_witness :
    (1 ≤ 1
      ∧ noEnqAfterDisp false
          [Act.enq taskA, Act.enq taskB, Act.disp, Act.wstep 0, Act.wstep 0,
            Act.wstep 0, Act.wstep 0, Act.wstep 0, Act.wstep 0,
            Act.wstep 0] = true
      ∧ disposeReturned (run (initState 1)
          [Act.enq taskA, Act.enq taskB, Act.disp, Act.wstep 0, Act.wstep 0,
            Act.wstep 0, Act.wstep 0, Act.wstep 0, Act.wstep 0, Act.wstep 0]))
    ∧ (run (initState 1)
          [Act.enq taskA, Act.enq taskB, Act.disp, Act.wstep 0, Act.wstep 0,
            Act.wstep 0, Act.wstep 0, Act.wstep 0, Act.wstep 0,
            Act.wstep 0]).tasks_queue = [] :=
  ⟨⟨by decide, by decide, by decide⟩,
    (dispose_return_guarantees 1
      [Act.enq taskA, Act.enq taskB, Act.disp, Act.wstep 0, Act.wstep 0,
        Act.wstep 0, Act.wstep 0, Act.wstep 0, Act.wstep 0, Act.wstep 0]
      (by decide) (by decide) (by decide)).2.2.1⟩

/-- A concrete state with one worker about to enter `with self.lock` and one
task queued, used by witnesses. -/
def sampleBeforePop : PoolState :=
  ⟨[taskA], false, [WorkerPc.beforePop], [], [], [], 0⟩

/-- Claim C3: the queue is strict FIFO.  `enqueue` appends at the tail
(line 96), a worker's pop removes the head (`pop(0)`, line 74), and over any
schedule the dequeue log followed by the pending queue is exactly the
enqueue sequence, so a task enqueued strictly before another is dequeued no
later than it (completion order is not constrained). -/
theorem fifo_dequeue_order :
    (∀ (s : PoolState) (t : Task),
        (step s (Act.enq t)).tasks_queue = s.tasks_queue ++ [t])
      ∧ (∀ (s : PoolState) (w : Nat) (t : Task) (rest : List Task),
          s.threads[w]? = some WorkerPc.beforePop →
          s.tasks_queue = t :: rest →
            (step s (Act.wstep w)).tasks_queue = rest
              ∧ (step s (Act.wstep w)).dequeued_log = s.dequeued_log ++ [t])
      ∧ (∀ (n : Nat) (acts : List Act),
          (run (initState n) acts).dequeued_log
              ++ (run (initState n) acts).tasks_queue = enqList acts) := by
  refine ⟨?_, ?_, ?_⟩
  · intro s t
    cases hcw : s.cond_waiters <;> simp [step, notifyOne, hcw]
  · intro s w t rest hw hq
    constructor <;> simp [step, hw, workerStep, hq]
  · intro n acts
    have hfifo := run_fifo acts (initState n)
    simpa only [show (initState n).dequeued_log = [] from rfl,
      show (initState n).tasks_queue = [] from rfl,
      List.nil_append] using hfifo

/-- Witness for C3: the pop branch applied at a concrete state. -/
theorem fifo_dequeue_order_witness :
    (sampleBeforePop.threads[0]? = some WorkerPc.beforePop
        ∧ sampleBeforePop.tasks_queue = taskA :: [])
      ∧ ((step sampleBeforePop (Act.wstep 0)).tasks_queue = []
        ∧ (step sampleBeforePop (Act.wstep 0)).dequeued_log = [] ++ [taskA]) :=
  ⟨⟨by decide, by decide⟩,
    fifo_dequeue_order.2.1 sampleBeforePop 0 taskA [] (by decide) (by decide)⟩

/-- If an index lookup into a list with one position overwritten yields a
value, that value is the overwritten one or was already there. -/
theorem getElem?_set_cases {α : Type} {l : List α} {i j : Nat} {b c : α}
    (h : (l.set i b)[j]? = some c) : c = b ∨ l[j]? = some c := by
  rw [List.getElem?_set] at h
  by_cases hij : i = j
  · rw [if_pos hij] at h
    by_cases hlt : i < l.length
    · rw [if_pos hlt] at h
      left
      exact (Option.some.injEq .. ▸ h).symm
    · rw [if_neg hlt] at h
      cases h
  · rw [if_neg hij] at h
    right
    exact h

/-- A worker step either leaves the thread list unchanged or overwrites the
control position of the stepping worker only. -/
theorem workerStep_threads_shape (s : PoolState) (v : Nat) (pc : WorkerPc) :
    (workerStep s v pc).threads = s.threads
      ∨ ∃ x, (workerStep s v pc).threads = s.threads.set v x := by
  cases pc with
  | loopTop =>
      right
      simp only [workerStep]
      split
      · split
        · exact ⟨_, rfl⟩
        · exact ⟨_, rfl⟩
      · exact ⟨_, rfl⟩
  | waiting => left; rfl
  | beforePop =>
      right
      simp only [workerStep]
      cases s.tasks_queue
      · exact ⟨_, rfl⟩
      · exact ⟨_, rfl⟩
  | running t => right; exact ⟨_, rfl⟩
  | finished => left; rfl

/-- Claim C4: a worker becomes terminated only through its own step, from a
state where the stop flag is set and the queue is empty (which the step
leaves empty); no other event terminates a worker.  A worker that is
mid-execution finishes its current task (the call completes and is logged)
and returns to the loop top rather than exiting. -/
theorem worker_exit_conditions :
    (∀ (s : PoolState) (a : Act) (w : Nat),
        s.threads[w]? ≠ some WorkerPc.finished →
        (step s a).threads[w]? = some WorkerPc.finished →
          a = Act.wstep w ∧ s.stop_flag = true ∧ s.tasks_queue = []
            ∧ (step s a).tasks_queue = [])
      ∧ (∀ (s : PoolState) (w : Nat) (t : Task),
          s.threads[w]? = some (WorkerPc.running t) →
            (step s (Act.wstep w)).executed_log = s.executed_log ++ [t]
              ∧ (step s (Act.wstep w)).threads[w]? = some WorkerPc.loopTop) := by
  constructor
  · intro s a w h1 h2
    cases a with
    | enq t =>
        exfalso
        revert h2
        cases hcw : s.cond_waiters with
        | nil => simp only [step, notifyOne, hcw]; exact h1
        | cons v vs =>
            simp only [step, notifyOne, hcw]
            intro h2
            rcases getElem?_set_cases h2 with hm | hm
            · cases hm
            · exact h1 hm
    | disp =>
        exfalso
        revert h2
        simp only [step, List.getElem?_map]
        cases hw : s.threads[w]? with
        | none => simp
        | some pc =>
            simp only [Option.map_some']
            intro hcontra
            have hfin : wakeAll pc = WorkerPc.finished :=
              Option.some.injEq .. ▸ hcontra
            cases pc <;> simp [wakeAll] at hfin
            exact h1 (by rw [hw])
    | wstep v =>
        by_cases hvw : v = w
        · subst hvw
          cases hw : s.threads[v]? with
          | none =>
              exfalso
              rw [show step s (Act.wstep v) = s by simp [step, hw]] at h2
              exact h1 h2
          | some pc =>
              have hlt : v < s.threads.length := (List.getElem?_eq_some.mp hw).1
              cases pc with
              | loopTop =>
                  revert h2
                  simp only [step, hw, workerStep]
                  split
                  · rename_i hq
                    split
                    · rename_i hstop
                      intro _
                      have hqe : s.tasks_queue = [] := List.isEmpty_iff.mp hq
                      exact ⟨by trivial, hstop, hqe, hqe⟩
                    · intro h2
                      rw [List.getElem?_set_self hlt] at h2
                      cases h2
                  · intro h2
                    rw [List.getElem?_set_self hlt] at h2
                    cases h2
              | waiting =>
                  exfalso
                  rw [show step s (Act.wstep v) = s by
                    simp [step, hw, workerStep]] at h2
                  exact h1 h2
              | beforePop =>
                  exfalso
                  revert h2
                  simp only [step, hw, workerStep]
                  cases s.tasks_queue with
                  | nil =>
                      intro h2
                      rw [List.getElem?_set_self hlt] at h2
                      cases h2
                  | cons t rest =>
                      intro h2
                      rw [List.getElem?_set_self hlt] at h2
                      cases h2
              | running t =>
                  exfalso
                  revert h2
                  simp only [step, hw, workerStep]
                  intro h2
                  rw [List.getElem?_set_self hlt] at h2
                  cases h2
              | finished => exact absurd hw h1
        · exfalso
          revert h2
          cases hw : s.threads[v]? with
          | none => simp only [step, hw]; exact h1
          | some pc =>
              simp only [step, hw]
              rcases workerStep_threads_shape s v pc with hsh | ⟨x, hsh⟩
              · rw [hsh]; exact h1
              · rw [hsh, List.getElem?_set_ne hvw]; exact h1
  · intro s w t hw
    have hlt : w < s.threads.length := (List.getElem?_eq_some.mp hw).1
    constructor <;> simp [step, hw, workerStep, List.getElem?_set_self, hlt]

/-- A concrete state whose single worker is at the loop top with the stop
flag set and an empty queue, used by the C4 witness. -/
def sampleStopping : PoolState :=
  ⟨[], true, [WorkerPc.loopTop], [], [], [], 0⟩

/-- Witness for C4: the only transition that terminates the worker of
`sampleStopping` is its own step, with the stop flag set and the queue
empty. -/
theorem worker_exit_conditions_witness :
    (sampleStopping.threads[0]? ≠ some WorkerPc.finished
        ∧ (step sampleStopping (Act.wstep 0)).threads[0]?
            = some WorkerPc.finished)
      ∧ (Act.wstep 0 = Act.wstep 0 ∧ sampleStopping.stop_flag = true
          ∧ sampleStopping.tasks_queue = []
          ∧ (step sampleStopping (Act.wstep 0)).tasks_queue = []) :=
  ⟨⟨by decide, by decide⟩,
    worker_exit_conditions.1 sampleStopping (Act.wstep 0) 0
      (by decide) (by decide)⟩

/-- Counterexample for C5: the dequeue-failure branch (line 75-76,
`else: continue`) is reachable.  With two workers and one task, both
workers observe a non-empty queue inside `with self.condition` and leave
that block; the lock is released between the two `with` blocks, so worker 1
pops the task first, and worker 0 then finds the queue empty at removal
time and must retry — `empty_pop_count` ends at 1, not 0. -/
theorem empty_pop_branch_reachable :
    (run (initState 2)
        [Act.enq taskA, Act.wstep 0, Act.wstep 1, Act.wstep 1,
          Act.wstep 0]).empty_pop_count = 1 := by decide

/-- Claim C5 (amended): a worker can reach the removal point and find the
queue empty (another worker may dequeue between its observation under the
lock and its removal under the lock, since the lock is released in
between), but the branch is harmless: the worker removes nothing, changes
no queue content and no log, and retries from the loop top. -/
theorem empty_pop_retry_harmless (s : PoolState) (w : Nat)
    (hw : s.threads[w]? = some WorkerPc.beforePop)
    (hq : s.tasks_queue = []) :
    step s (Act.wstep w)
      = { s with threads := s.threads.set w WorkerPc.loopTop,
                 empty_pop_count := s.empty_pop_count + 1 } := by
  simp [step, hw, workerStep, hq]

/-- A concrete state with one worker at the removal point and an empty
queue, used by the C5 witness. -/
def sampleEmptyPop : PoolState :=
  ⟨[], false, [WorkerPc.beforePop], [], [], [], 0⟩

/-- Witness for C5 (amended): the retry branch at a concrete state. -/
theorem empty_pop_retry_harmless_witness :
    (sampleEmptyPop.threads[0]? = some WorkerPc.beforePop
        ∧ sampleEmptyPop.tasks_queue = [])
      ∧ step sampleEmptyPop (Act.wstep 0)
          = { sampleEmptyPop with
                threads := sampleEmptyPop.threads.set 0 WorkerPc.loopTop,
                empty_pop_count := sampleEmptyPop.empty_pop_count + 1 } :=
  ⟨⟨by decide, by decide⟩,
    empty_pop_retry_harmless sampleEmptyPop 0 (by decide) (by decide)⟩

/-- Claim C6: the stop flag starts `False` at construction and equals, in
every reachable state, exactly whether `dispose` has run: no operation
other than `dispose` modifies it, and it never resets to `False`. -/
theorem stop_flag_iff_dispose (n : Nat) (acts : List Act) :
    (run (initState n) acts).stop_flag = true ↔ Act.disp ∈ acts := by
  rw [run_stop_iff]
  simp [initState]

/-- Counterexample for C7: constructing the pool with the negative worker
count `-3` does not fail: `mkThreadPool` returns a pool handle (no
invalid-argument signal), and that pool has zero worker threads, because
`__init__` performs no validation and `for _ in range(-3)` runs zero
times. -/
theorem construction_no_validation :
    mkThreadPool (-3) = Except.ok (initState 0)
      ∧ (initState 0).threads = [] := ⟨rfl, rfl⟩

/-- Claim C7 (amended): constructing the pool with a negative worker_count
does not fail fast and raises no invalid-argument signal; the constructor
performs no validation and returns a pool with zero started workers. -/
theorem construction_negative_no_error (z : Int) (hz : z < 0) :
    mkThreadPool z = Except.ok (initState 0)
      ∧ (initState 0).threads = [] := by
  constructor
  · unfold mkThreadPool
    rw [Int.toNat_of_nonpos hz.le]
  · rfl

/-- Witness for C7 (amended): the constructor at `-5`. -/
theorem construction_negative_no_error_witness :
    ((-5 : Int) < 0)
      ∧ (mkThreadPool (-5) = Except.ok (initState 0)
          ∧ (initState 0).threads = []) :=
  ⟨by decide, construction_negative_no_error (-5) (by decide)⟩

/-- Claim C8: `enqueue` succeeds on every queue state: it appends the task
tuple at the tail, leaving all previously queued tasks in place and in
order, it is never rejected for capacity (the append is unconditional, the
queue unbounded), and it wakes at least one waiting worker: in any
reachable state whose waiter queue is non-empty, the longest-waiting
worker — which is indeed blocked in `wait()` — is moved back to its loop
top and removed from the waiter queue. -/
theorem enqueue_always_succeeds :
    (∀ (s : PoolState) (t : Task),
        (step s (Act.enq t)).tasks_queue = s.tasks_queue ++ [t])
      ∧ (∀ (n : Nat) (acts : List Act) (t : Task) (w : Nat) (ws : List Nat),
          (run (initState n) acts).cond_waiters = w :: ws →
            (run (initState n) acts).threads[w]? = some WorkerPc.waiting
              ∧ (step (run (initState n) acts) (Act.enq t)).threads[w]?
                  = some WorkerPc.loopTop
              ∧ (step (run (initState n) acts) (Act.enq t)).cond_waiters
                  = ws) := by
  constructor
  · intro s t
    cases hcw : s.cond_waiters <;> simp [step, notifyOne, hcw]
  · intro n acts t w ws hcw
    have hW := waitersInv_run acts (initState n) (waitersInv_init n)
    have hww : (run (initState n) acts).threads[w]? = some WorkerPc.waiting :=
      hW.1 w (by rw [hcw]; exact List.mem_cons_self w ws)
    have hlt : w < (run (initState n) acts).threads.length :=
      (List.getElem?_eq_some.mp hww).1
    refine ⟨hww, ?_, ?_⟩
    · simp [step, notifyOne, hcw, List.getElem?_set_self, hlt]
    · simp [step, notifyOne, hcw]

/-- Witness for C8: one worker goes to sleep on the empty queue; an enqueue
wakes it. -/
theorem enqueue_always_succeeds_witness :
    ((run (initState 1) [Act.wstep 0]).cond_waiters = 0 :: [])
      ∧ ((run (initState 1) [Act.wstep 0]).threads[0]?
            = some WorkerPc.waiting
          ∧ (step (run (initState 1) [Act.wstep 0])
              (Act.enq taskA)).threads[0]? = some WorkerPc.loopTop
          ∧ (step (run (initState 1) [Act.wstep 0])
              (Act.enq taskA)).cond_waiters = []) :=
  ⟨by decide,
    enqueue_always_succeeds.2 1 [Act.wstep 0] taskA 0 [] (by decide)⟩

/-- On a state whose stop flag is already set, whose condition has no
waiters, and whose workers are unaffected by `notify_all`, the locked part
of `dispose` changes nothing. -/
theorem step_disp_of_inert (s : PoolState) (hstop : s.stop_flag = true)
    (hcw : s.cond_waiters = []) (hmap : s.threads.map wakeAll = s.threads) :
    step s Act.disp = s := by
  obtain ⟨q, st, th, cw, dq, ex, ep⟩ := s
  simp only [step]
  simp at hstop hcw hmap
  simp [hstop, hcw, hmap]

/-- Claim C9: a second, sequential call to `dispose()` after a completed
first `dispose()` returns without raising and leaves the pool unchanged:
the stop flag (already `True`) is rewritten to `True`, `notify_all` finds
no waiters, the state is identical, and the joins of the already-terminated
workers complete (the pool is still in the all-terminated state); the queue
is still empty. -/
theorem second_dispose_noop (n : Nat) (acts : List Act) (hn : 1 ≤ n)
    (hwf : noEnqAfterDisp false acts = true)
    (hret : disposeReturned (run (initState n) acts)) :
    step (run (initState n) acts) Act.disp = run (initState n) acts
      ∧ (run (initState n) acts).tasks_queue = []
      ∧ disposeReturned (step (run (initState n) acts) Act.disp) := by
  obtain ⟨hstop, hAll⟩ := hret
  have hW := waitersInv_run acts (initState n) (waitersInv_init n)
  have hcw := cond_waiters_nil_of_allFinished _ hW hAll
  have hmap : (run (initState n) acts).threads.map wakeAll
      = (run (initState n) acts).threads := by
    rw [List.map_congr_left (g := id) ?_, List.map_id]
    intro pc hpc
    rw [hAll pc hpc]
    rfl
  have heq := step_disp_of_inert (run (initState n) acts) hstop hcw hmap
  refine ⟨heq, queue_empty_of_allFinished n hn acts hwf hAll, ?_⟩
  rw [heq]
  exact ⟨hstop, hAll⟩

/-- Witness for C9: dispose an idle one-worker pool, let the worker exit,
then dispose again. -/
theorem second_dispose_noop_witness :
    (1 ≤ 1
      ∧ noEnqAfterDisp false [Act.disp, Act.wstep 0] = true
      ∧ disposeReturned (run (initState 1) [Act.disp, Act.wstep 0]))
    ∧ step (run (initState 1) [Act.disp, Act.wstep 0]) Act.disp
        = run (initState 1) [Act.disp, Act.wstep 0] :=
  ⟨⟨by decide, by decide, by decide⟩,
    (second_dispose_noop 1 [Act.disp, Act.wstep 0]
      (by decide) (by decide) (by decide)).1⟩

/-- Claim C10: `enqueue` never inspects the stop flag — its transition is
the same whatever the flag holds — so calling it after `dispose` has
completed (every worker terminated) still appends the task to the queue
and returns normally; and since all workers have exited, no further
schedule ever executes that task: the execution log never changes again. -/
theorem enqueue_after_dispose_dead (n : Nat) (acts rest : List Act)
    (t : Task) (hAll : allFinished (run (initState n) acts)) :
    (∀ (s : PoolState) (b : Bool) (u : Task),
        step { s with stop_flag := b } (Act.enq u)
          = { step s (Act.enq u) with stop_flag := b })
      ∧ (step (run (initState n) acts) (Act.enq t)).tasks_queue
          = (run (initState n) acts).tasks_queue ++ [t]
      ∧ (step (run (initState n) acts) (Act.enq t)).threads
          = (run (initState n) acts).threads
      ∧ (run (step (run (initState n) acts) (Act.enq t)) rest).executed_log
          = (run (initState n) acts).executed_log
      ∧ allFinished (run (step (run (initState n) acts) (Act.enq t)) rest) := by
  have hW := waitersInv_run acts (initState n) (waitersInv_init n)
  have hcw := cond_waiters_nil_of_allFinished _ hW hAll
  have hq : (step (run (initState n) acts) (Act.enq t)).tasks_queue
      = (run (initState n) acts).tasks_queue ++ [t] := by
    simp [step, notifyOne, hcw]
  have ht : (step (run (initState n) acts) (Act.enq t)).threads
      = (run (initState n) acts).threads := by
    simp [step, notifyOne, hcw]
  have he : (step (run (initState n) acts) (Act.enq t)).executed_log
      = (run (initState n) acts).executed_log := by
    simp [step, notifyOne, hcw]
  have hc : (step (run (initState n) acts) (Act.enq t)).cond_waiters = [] := by
    simp [step, notifyOne, hcw]
  have hAll' : allFinished (step (run (initState n) acts) (Act.enq t)) := by
    intro pc hpc
    rw [ht] at hpc
    exact hAll pc hpc
  obtain ⟨he', ht', _, _⟩ :=
    frozen_run rest (step (run (initState n) acts) (Act.enq t)) hAll' hc
  refine ⟨?_, hq, ht, by rw [he', he], ?_⟩
  · intro s b u
    cases hcw' : s.cond_waiters <;> simp [step, notifyOne, hcw']
  · intro pc hpc
    rw [ht'] at hpc
    exact hAll' pc hpc

/-- Witness for C10: enqueue into a disposed, fully terminated one-worker
pool; a further worker step leaves the execution log empty. -/
theorem enqueue_after_dispose_dead_witness :
    allFinished (run (initState 1) [Act.disp, Act.wstep 0])
      ∧ ((step (run (initState 1) [Act.disp, Act.wstep 0])
            (Act.enq taskA)).tasks_queue
          = (run (initState 1) [Act.disp, Act.wstep 0]).tasks_queue ++ [taskA]
        ∧ (run (step (run (initState 1) [Act.disp, Act.wstep 0])
            (Act.enq taskA)) [Act.wstep 0]).executed_log
          = (run (initState 1) [Act.disp, Act.wstep 0]).executed_log) :=
  ⟨by decide,
    ⟨(enqueue_after_dispose_dead 1 [Act.disp, Act.wstep 0] [Act.wstep 0]
        taskA (by decide)).2.1,
      (enqueue_after_dispose_dead 1 [Act.disp, Act.wstep 0] [Act.wstep 0]
        taskA (by decide)).2.2.2.1⟩⟩

end ThreadPool
